import Mathlib

/-!
Verification development for the design-resolve note extension.

The development embeds the two TypeScript source files
(`src/extension.ts`, the strict variant, and the unnamed sibling file,
the tolerant variant) as executable Lean functions over `List Char`
texts, and settles the frozen claims about the note-index builder
(`parseNoteFiles`) and the key matcher (`updateDecorations`,
`provideHover`, `provideDefinition`).

Both matchers in the source build `new RegExp(key, 'g')` directly from
the key text and drive it with a `while (regex.exec(...))` loop, so the
embedding models the relevant fragment of JavaScript regular-expression
semantics: literal characters, the dot (any character except a line
terminator), and a starred single atom, matched greedily with
backtracking, leftmost first, with the `lastIndex` state of the global
regex threaded explicitly.  Keys outside this fragment are rejected by
`parseKeyPattern` (returning `none`), which the theorems treat as
"outside the model".  The `exec` loop is driven by an explicit fuel
argument; `none` means the loop did not finish within the given fuel,
which is how the embedding can express the source's actual
non-termination on keys whose pattern matches the empty string.

Texts are lists of Lean `Char`s; all characters appearing in the claims
are in the Basic Multilingual Plane, where JavaScript UTF-16 string
indices and character counts coincide with `List Char` positions.
-/

namespace DesignResolve

/-- JavaScript `String.prototype.trim` restricted to the whitespace
characters relevant here (space, tab, carriage return, newline). -/
def trimWs (l : List Char) : List Char :=
  ((l.dropWhile Char.isWhitespace).reverse.dropWhile Char.isWhitespace).reverse

/-- Line number of character offset `p` in a text, as computed by the
host's `positionAt`: the number of line breaks before the offset. -/
def lineOf (cs : List Char) (p : Nat) : Nat :=
  (cs.take p).count '\n'

/-- Boolean "the first list is an initial segment of the second". -/
def leadsWith : List Char → List Char → Bool
  | [], _ => true
  | _ :: _, [] => false
  | a :: as, b :: bs => a == b && leadsWith as bs

/-- Boolean "the first list occurs as a contiguous segment of the
second" — literal substring occurrence. -/
def occursIn (needle : List Char) : List Char → Bool
  | [] => needle.isEmpty
  | c :: t => leadsWith needle (c :: t) || occursIn needle t

/-! ## The key-as-pattern fragment of JavaScript regular expressions -/

/-- A single-character regex atom: a literal character, or the dot. -/
inductive Atom where
  | lit (c : Char) : Atom
  | any : Atom
deriving DecidableEq

/-- A piece of a pattern: an atom matched once, or a starred atom. -/
inductive Piece where
  | once (a : Atom) : Piece
  | star (a : Atom) : Piece
deriving DecidableEq

/-- Whether an atom matches one character.  The JavaScript dot (without
the `s` flag) matches any character except a line terminator. -/
def atomMatch : Atom → Char → Bool
  | Atom.lit c, d => d == c
  | Atom.any, d =>
    !(d == '\n' || d == '\r' || d.toNat == 8232 || d.toNat == 8233)

/-- Length of the maximal run of leading characters matching an atom. -/
def runLen (a : Atom) : List Char → Nat
  | [] => 0
  | d :: ds => if atomMatch a d then runLen a ds + 1 else 0

/-- Backtracking for a starred atom: try to consume `j` characters for
the star, largest first, and continue with `f` on the remainder. -/
def starTry (f : List Char → Option Nat) (ds : List Char) : Nat → Option Nat
  | 0 => f ds
  | j + 1 =>
    match (f (ds.drop (j + 1))).map (fun m => m + (j + 1)) with
    | some r => some r
    | none => starTry f ds j

/-- Greedy backtracking match of a pattern against a prefix of `ds`,
returning the number of characters consumed.  The first argument is
structural fuel that is always instantiated with the pattern length. -/
def matchSeqF : Nat → List Piece → List Char → Option Nat
  | _, [], _ => some 0
  | 0, _ :: _, _ => none
  | n + 1, Piece.once a :: rest, ds =>
    match ds with
    | [] => none
    | d :: ds2 =>
      if atomMatch a d then (matchSeqF n rest ds2).map (fun m => m + 1)
      else none
  | n + 1, Piece.star a :: rest, ds =>
    starTry (matchSeqF n rest) ds (runLen a ds)

/-- Match a pattern at the start of `ds` (JavaScript semantics for the
supported fragment), returning the length of the match. -/
def matchSeq (ps : List Piece) (ds : List Char) : Option Nat :=
  matchSeqF ps.length ps ds

/-- Is the character one of the regex constructs outside the modelled
fragment (escapes, groups, classes, alternation, anchors, braces)? -/
def isPatSpecial (c : Char) : Bool :=
  c == '\\' || c == '(' || c == ')' || c == '[' || c == ']' ||
  c == '|' || c == '^' || c == '$' || c.toNat == 123 || c.toNat == 125

/-- Is the character a quantifier? -/
def quantChar (c : Char) : Bool :=
  c == '*' || c == '+' || c == '?'

/-- The atom denoted by a single non-special pattern character. -/
def mkAtom (c : Char) : Atom :=
  if c = '.' then Atom.any else Atom.lit c

/-- Compile a key string into the modelled pattern fragment, exactly as
`new RegExp(key)` reads it: a plain character or dot is an atom, an
atom followed by `*` is starred; anything else is outside the model. -/
def parseKeyPattern : List Char → Option (List Piece)
  | [] => some []
  | [c] =>
    if quantChar c || isPatSpecial c then none
    else some [Piece.once (mkAtom c)]
  | c :: q :: rest =>
    if quantChar c || isPatSpecial c then none
    else if q = '*' then
      (parseKeyPattern rest).map (fun ps => Piece.star (mkAtom c) :: ps)
    else if q = '+' || q = '?' then none
    else (parseKeyPattern (q :: rest)).map (fun ps => Piece.once (mkAtom c) :: ps)

/-- A key character that the pattern compiler treats as a literal. -/
def isLitChar (c : Char) : Bool :=
  !(quantChar c || isPatSpecial c || c == '.')

/-- Leftmost match search: try to match the pattern at `i`, `i + 1`, …
(`cnt` positions in all), returning the first matching position and the
match length.  This is how `exec` scans forward from `lastIndex`. -/
def findFromAux (pat : List Piece) (cs : List Char) : Nat → Nat → Option (Nat × Nat)
  | _, 0 => none
  | i, k + 1 =>
    match matchSeq pat (cs.drop i) with
    | some len => some (i, len)
    | none => findFromAux pat cs (i + 1) k

/-- Leftmost match of `pat` in `cs` at a position `≥ i` (a match of the
empty string at the end position `cs.length` included, as in JS). -/
def findFrom (pat : List Piece) (cs : List Char) (i : Nat) : Option (Nat × Nat) :=
  findFromAux pat cs i (cs.length + 1 - i)

/-- The `while ((match = regex.exec(text)) !== null)` loop of
`updateDecorations`: starting from `lastIndex = i`, produce one
`(match.index, match.index + key.length)` pair per match, setting
`lastIndex` to `match.index + match.length` after each match.  `none`
means the loop did not finish within `fuel` iterations — in particular,
a zero-length match never advances `lastIndex`, exactly as in JS. -/
def jsExecSpans (pat : List Piece) (keyLen : Nat) (cs : List Char) : Nat → Nat → Option (List (Nat × Nat))
  | _, 0 => none
  | i, fuel + 1 =>
    match findFrom pat cs i with
    | none => some []
    | some (j, len) =>
      match jsExecSpans pat keyLen cs (j + len) fuel with
      | none => none
      | some more => some ((j, j + keyLen) :: more)

/-- The inner `while`-loop of `provideHover`/`provideDefinition` for one
note: scan the line for matches of the key pattern and report whether
some match's range contains the queried column.  The range built by the
source is `[match.index, match.index + key.length]` and
`vscode.Range.contains` is inclusive at both ends. -/
def jsFindAtKey (pat : List Piece) (keyLen : Nat) (cs : List Char) (col : Nat) : Nat → Nat → Option Bool
  | _, 0 => none
  | i, fuel + 1 =>
    match findFrom pat cs i with
    | none => some false
    | some (j, len) =>
      if j ≤ col ∧ col ≤ j + keyLen then some true
      else jsFindAtKey pat keyLen cs col (j + len) fuel

/-! ## Data model -/

/-- One parsed note: key and value as stored (already trimmed), the
identifier of the source it came from, and the line of its marker. -/
structure NoteEntry where
  key : List Char
  value : List Char
  sourceId : Nat
  defLine : Nat
deriving DecidableEq

/-- One occurrence of a key in the target document.  The source's
decoration carries only the range; the key field is the back-reference
of the specification's data model. -/
structure MatchSpan where
  key : List Char
  startOffset : Nat
  endOffset : Nat
deriving DecidableEq

/-- The span enumeration of `updateDecorations`: for each note in index
order, run the global-regex loop over the whole target text and emit
one span per match.  `none` if some key is outside the modelled regex
fragment or some per-key loop does not finish within `fuel`. -/
def findAllSpans : List NoteEntry → List Char → Nat → Option (List MatchSpan)
  | [], _, _ => some []
  | n :: rest, cs, fuel =>
    match parseKeyPattern n.key with
    | none => none
    | some pat =>
      match jsExecSpans pat n.key.length cs 0 fuel with
      | none => none
      | some occs =>
        match findAllSpans rest cs fuel with
        | none => none
        | some tailSpans =>
          some (occs.map (fun se => MatchSpan.mk n.key se.1 se.2) ++ tailSpans)

/-- The shared lookup of `provideHover` and `provideDefinition`: walk
the notes in index order; for each, scan the line with the key's global
regex and return the first note one of whose match ranges contains the
column (inclusively, per `vscode.Range.contains`).  `some none` means
the loop finished without a hit (the provider returns `null`). -/
def findNoteAt : List NoteEntry → List Char → Nat → Nat → Option (Option NoteEntry)
  | [], _, _, _ => some none
  | n :: rest, cs, col, fuel =>
    match parseKeyPattern n.key with
    | none => none
    | some pat =>
      match jsFindAtKey pat n.key.length cs col 0 fuel with
      | none => none
      | some true => some (some n)
      | some false => findNoteAt rest cs col fuel

/-! ## The note-file grammar of `parseNoteFiles`

The strict variant uses the regex `【([^】]+)】：([\s\S]*?)(?=\n【|$)`
and the tolerant variant drops the `：` after the closing bracket.  The
embedding implements exactly these semantics: the bracket contents are
the maximal run of non-`】` characters (nonempty), the strict variant
additionally requires the full-width colon immediately after `】`, and
the lazy value group extends to the first position where either the
next two characters are a newline and `【`, or the input ends. -/

/-- Length of the value captured by the lazy group `([\s\S]*?)` before
the lookahead `(?=\n【|$)` fires. -/
def valueLen : List Char → Nat
  | [] => 0
  | c :: rest =>
    if c = '\n' ∧ rest.head? = some '【' then 0
    else 1 + valueLen rest

/-- Try to match one key-marker entry of the note grammar at exactly
position `p`; on success return the raw key, the raw value and the end
offset of the whole match. -/
def matchNoteAt (strict : Bool) (cs : List Char) (p : Nat) : Option (List Char × List Char × Nat) :=
  match cs.drop p with
  | [] => none
  | c :: rest =>
    if c = '【' then
      let krun := rest.takeWhile (fun x => x != '】')
      if krun.isEmpty then none
      else
        match rest.drop krun.length with
        | close :: after1 =>
          if close = '】' then
            if strict then
              match after1 with
              | sep :: after2 =>
                if sep = '：' then
                  some (krun, after2.take (valueLen after2),
                    p + 1 + krun.length + 2 + valueLen after2)
                else none
              | [] => none
            else
              some (krun, after1.take (valueLen after1),
                p + 1 + krun.length + 1 + valueLen after1)
          else none
        | [] => none
    else none

/-- Scan forward for the leftmost grammar match at a position `≥ i`
(`cnt` candidate positions). -/
def findNoteFromAux (strict : Bool) (cs : List Char) : Nat → Nat → Option (Nat × List Char × List Char × Nat)
  | _, 0 => none
  | i, k + 1 =>
    match matchNoteAt strict cs i with
    | some r => some (i, r.1, r.2.1, r.2.2)
    | none => findNoteFromAux strict cs (i + 1) k

/-- Leftmost grammar match at a position `≥ i`. -/
def findNoteFrom (strict : Bool) (cs : List Char) (i : Nat) : Option (Nat × List Char × List Char × Nat) :=
  findNoteFromAux strict cs i (cs.length + 1 - i)

/-- The `while ((match = regex.exec(text)) !== null)` loop of
`parseNoteFiles`: trim the captured key and value, silently drop the
candidate when either trims to empty, and continue after the match.
Each grammar match is at least three characters long, so fuel
`cs.length + 1` always suffices. -/
def parseLoop (strict : Bool) (cs : List Char) : Nat → Nat → List (List Char × List Char × Nat)
  | _, 0 => []
  | i, fuel + 1 =>
    match findNoteFrom strict cs i with
    | none => []
    | some (p, k, v, e) =>
      (if trimWs k = [] ∨ trimWs v = [] then []
       else [(trimWs k, trimWs v, lineOf cs p)]) ++ parseLoop strict cs e fuel

/-- Parse one note source: the list of `(key, value, line)` records in
match order. -/
def parseNotesText (strict : Bool) (cs : List Char) : List (List Char × List Char × Nat) :=
  parseLoop strict cs 0 (cs.length + 1)

/-- The body of `parseNoteFiles` over an explicit source list.  A
source is an identifier together with `some` text, or `none` when the
host fails to read it.  The source loop `await`s each text in turn and
has no error handling: a failing read raises, so the whole build
rejects and the entries accumulated so far are lost. -/
def parseNoteFilesAux (strict : Bool) (acc : List NoteEntry) : List (Nat × Option (List Char)) → Except Unit (List NoteEntry)
  | [] => Except.ok acc
  | (sid, txt) :: rest =>
    match txt with
    | none => Except.error ()
    | some t =>
      parseNoteFilesAux strict
        (acc ++ (parseNotesText strict t).map (fun e => NoteEntry.mk e.1 e.2.1 sid e.2.2))
        rest

/-- `parseNoteFiles`: build the note index from a list of sources. -/
def parseNoteFiles (strict : Bool) (srcs : List (Nat × Option (List Char))) : Except Unit (List NoteEntry) :=
  parseNoteFilesAux strict [] srcs

/-! ## Reference enumeration of literal occurrences

Modelled from the specification's contract A wording: a literal
substring search producing one span per occurrence, advancing past each
match, non-overlapping and left to right.  This is the specification's
notion of "occurrence", used to compare the source's regex-based scan
against literal matching. -/

/-- Fueled scanner for literal non-overlapping left-to-right
occurrences; the fuel is always instantiated with the text length. -/
def specLitScanF (key : List Char) : Nat → List Char → Nat → List (Nat × Nat)
  | 0, _, _ => []
  | f + 1, ds, i =>
    match ds with
    | [] => []
    | d :: ds2 =>
      if key ≠ [] ∧ leadsWith key (d :: ds2) then
        (i, i + key.length) :: specLitScanF key f ((d :: ds2).drop key.length) (i + key.length)
      else specLitScanF key f ds2 (i + 1)

/-- Spans of the literal non-overlapping left-to-right occurrences of
`key` in `ds`, with offsets starting at `i`. -/
def specLitScan (key ds : List Char) (i : Nat) : List (Nat × Nat) :=
  specLitScanF key ds.length ds i

/-- The per-key span list of the source's regex scan, used to state the
locate-at-position contract; `[]` when the key is outside the model or
the loop did not finish. -/
def keySpans (n : NoteEntry) (cs : List Char) (fuel : Nat) : List (Nat × Nat) :=
  ((parseKeyPattern n.key).bind (fun pat => jsExecSpans pat n.key.length cs 0 fuel)).getD []

/-! ## Unfolding equations for the pattern matcher -/

/-- Matching the empty pattern consumes nothing. -/
theorem matchSeq_nil (ds : List Char) : matchSeq [] ds = some 0 := rfl

/-- A mandatory atom fails on the empty text. -/
theorem matchSeq_once_nil (a : Atom) (rest : List Piece) :
    matchSeq (Piece.once a :: rest) [] = none := rfl

/-- A mandatory atom consumes one matching character. -/
theorem matchSeq_once_cons (a : Atom) (rest : List Piece) (d : Char) (ds : List Char) :
    matchSeq (Piece.once a :: rest) (d :: ds) =
      if atomMatch a d then (matchSeq rest ds).map (fun m => m + 1) else none := rfl

/-- A starred atom backtracks from the maximal run. -/
theorem matchSeq_star (a : Atom) (rest : List Piece) (ds : List Char) :
    matchSeq (Piece.star a :: rest) ds = starTry (matchSeq rest) ds (runLen a ds) := rfl

/-! ## C1, C2, C3: the key is compiled as a regex, unescaped -/

/-- Claim C1 (code bug): the source builds `new RegExp(key, 'g')`
without escaping, so the key `a.b` matches the text `axb` (the dot is
treated as pattern syntax) in the decoration scan and in the
hover/definition lookup, although `a.b` does not occur literally in
`axb`.  The claim's literal-matching requirement is the spec's stated
intent (§4.2, §9) and the code violates it. -/
theorem regex_key_not_literal_code_bug :
    findAllSpans [NoteEntry.mk ['a', '.', 'b'] ['v'] 0 0] ['a', 'x', 'b'] 4 =
      some [MatchSpan.mk ['a', '.', 'b'] 0 3] ∧
    occursIn ['a', '.', 'b'] ['a', 'x', 'b'] = false ∧
    findNoteAt [NoteEntry.mk ['a', '.', 'b'] ['v'] 0 0] ['a', 'x', 'b'] 1 4 =
      some (some (NoteEntry.mk ['a', '.', 'b'] ['v'] 0 0)) := by
  decide

/-- Claim C2 (code bug): on the key `ab*` and the one-character target
`a`, the regex match has length 1 but the span is built as
`[match.index, match.index + key.length)`, producing the span `[0, 3)`
that overruns the document (length 1).  The in-bounds half of the
claimed invariant fails; `endOffset = startOffset + key.length` holds
by construction. -/
theorem span_bounds_violation_code_bug :
    findAllSpans [NoteEntry.mk ['a', 'b', '*'] ['v'] 0 0] ['a'] 3 =
      some [MatchSpan.mk ['a', 'b', '*'] 0 3] ∧
    (['a'] : List Char).length < 3 := by
  decide

/-- On the key `a*`, the global regex matches the empty string and
`lastIndex` never advances, so the `exec` loop never finishes no matter
how much fuel it is given. -/
theorem jsExecSpans_star_stuck :
    ∀ fuel : Nat, jsExecSpans [Piece.star (Atom.lit 'a')] 2 ['b'] 0 fuel = none := by
  intro fuel
  induction fuel with
  | zero => rfl
  | succ f ih =>
    have h : jsExecSpans [Piece.star (Atom.lit 'a')] 2 ['b'] 0 (f + 1) =
        match jsExecSpans [Piece.star (Atom.lit 'a')] 2 ['b'] 0 f with
        | none => none
        | some more => some ((0, 2) :: more) := rfl
    rw [h, ih]

/-- The hover lookup loop is stuck the same way when the empty-string
match does not contain the queried column. -/
theorem jsFindAtKey_star_stuck :
    ∀ fuel : Nat,
      jsFindAtKey [Piece.star (Atom.lit 'a')] 2 ['b', 'b', 'b', 'b'] 3 0 fuel = none := by
  intro fuel
  induction fuel with
  | zero => rfl
  | succ f ih =>
    have h : jsFindAtKey [Piece.star (Atom.lit 'a')] 2 ['b', 'b', 'b', 'b'] 3 0 (f + 1) =
        jsFindAtKey [Piece.star (Atom.lit 'a')] 2 ['b', 'b', 'b', 'b'] 3 0 f := rfl
    rw [h, ih]

/-- Claim C3 (code bug): on the note key `a*` (trimmed and non-empty,
so a legal parsed key) the matcher does not run to completion: the
decoration scan over the target `b` and the hover lookup over the line
`bbbb` at column 3 are `none` for every fuel — the embedded `exec`
loops never terminate, because the regex matches the empty string and
`lastIndex` never advances. -/
theorem matcher_nontermination_code_bug (fuel : Nat) :
    findAllSpans [NoteEntry.mk ['a', '*'] ['v'] 0 0] ['b'] fuel = none ∧
    findNoteAt [NoteEntry.mk ['a', '*'] ['v'] 0 0] ['b', 'b', 'b', 'b'] 3 fuel = none := by
  constructor
  · have h : findAllSpans [NoteEntry.mk ['a', '*'] ['v'] 0 0] ['b'] fuel =
        (match jsExecSpans [Piece.star (Atom.lit 'a')] 2 ['b'] 0 fuel with
         | none => none
         | some occs =>
           some (occs.map (fun se => MatchSpan.mk ['a', '*'] se.1 se.2) ++ []) :
          Option (List MatchSpan)) := rfl
    rw [h, jsExecSpans_star_stuck fuel]
  · have h : findNoteAt [NoteEntry.mk ['a', '*'] ['v'] 0 0] ['b', 'b', 'b', 'b'] 3 fuel =
        (match jsFindAtKey [Piece.star (Atom.lit 'a')] 2 ['b', 'b', 'b', 'b'] 3 0 fuel with
         | none => none
         | some true => some (some (NoteEntry.mk ['a', '*'] ['v'] 0 0))
         | some false => some none : Option (Option NoteEntry)) := rfl
    rw [h, jsFindAtKey_star_stuck fuel]

/-! ## C4: a failing source read aborts the whole build -/

/-- Claim C4 (code bug): the source loop of `parseNoteFiles` `await`s
each `openTextDocument` with no try/catch, so a failing read of source
1 rejects the whole build and the entries of sources 0 and 2 are lost;
run on the readable sources alone, the build does return their
entries.  The spec (§4.1, §7) requires skip-and-continue. -/
theorem source_failure_aborts_build_code_bug :
    parseNoteFiles false [(0, some ['【', 'A', '】', 'x']), (1, none), (2, some ['【', 'C', '】', 'z'])] =
      Except.error () ∧
    parseNoteFiles false [(0, some ['【', 'A', '】', 'x']), (2, some ['【', 'C', '】', 'z'])] =
      Except.ok [NoteEntry.mk ['A'] ['x'] 0 0, NoteEntry.mk ['C'] ['z'] 2 0] :=
  ⟨rfl, rfl⟩

/-! ## C5, C6: the two grammar variants on the spec's own examples -/

/-- The spec's multi-line capture example `【A】line1\nline2\n【B】line3`. -/
def exampleTwoMarkers : List Char :=
  ['【', 'A', '】', 'l', 'i', 'n', 'e', '1', '\n', 'l', 'i', 'n', 'e', '2', '\n',
   '【', 'B', '】', 'l', 'i', 'n', 'e', '3']

/-- The spec's empty-value filtering example `【A】\n【B】value`. -/
def exampleEmptyValue : List Char :=
  ['【', 'A', '】', '\n', '【', 'B', '】', 'v', 'a', 'l', 'u', 'e']

/-- Counterexample to claim C5 as stated: the strict variant
(`src/extension.ts`) requires the full-width colon right after `】`, so
on the spec's example it finds no match at all and yields no entries —
not entry A with `line1\nline2` and entry B with `line3`. -/
theorem strict_variant_rejects_spec_example :
    parseNotesText true exampleTwoMarkers = [] ∧
    parseNotesText true exampleTwoMarkers ≠
      [(['A'], ['l', 'i', 'n', 'e', '1', '\n', 'l', 'i', 'n', 'e', '2'], 0),
       (['B'], ['l', 'i', 'n', 'e', '3'], 2)] := by
  decide

/-- Counterexample to claim C6 as stated: on the spec's example the
strict variant emits no entry at all — in particular not exactly one
entry for B; the tolerant variant does emit exactly the B entry. -/
theorem strict_variant_empty_value_example :
    parseNotesText true exampleEmptyValue = [] ∧
    parseNotesText false exampleEmptyValue = [(['B'], ['v', 'a', 'l', 'u', 'e'], 1)] := by
  decide

/-! ## C9: the build is a pure function of its sources -/

/-- Claim C9: `parseNoteFiles` is deterministic and idempotent — the
embedding threads the regex `lastIndex` state and the accumulator
explicitly, so the build is a pure function and identical source lists
give identical entry lists, element for element and in order. -/
theorem build_deterministic (strict : Bool)
    (s t : List (Nat × Option (List Char))) (h : s = t) :
    parseNoteFiles strict s = parseNoteFiles strict t := by
  rw [h]

/-- Witness for C9 at a concrete source list. -/
theorem build_deterministic_witness :
    parseNoteFiles false [(0, some ['【', 'A', '】', 'x'])] =
      parseNoteFiles false [(0, some ['【', 'A', '】', 'x'])] :=
  build_deterministic false _ _ rfl

/-! ## C10: the two parse variants are not equivalent -/

/-- Counterexample to claim C10: on `【A】：v` the strict variant
captures the value `v` while the tolerant variant starts the value at
the colon and captures `：v`; the two outputs differ. -/
theorem variants_differ_counterexample :
    parseNotesText true ['【', 'A', '】', '：', 'v'] = [(['A'], ['v'], 0)] ∧
    parseNotesText false ['【', 'A', '】', '：', 'v'] = [(['A'], ['：', 'v'], 0)] ∧
    parseNotesText true ['【', 'A', '】', '：', 'v'] ≠
      parseNotesText false ['【', 'A', '】', '：', 'v'] := by
  decide

/-- Neither grammar variant can match anywhere in a text that contains
no opening bracket. -/
theorem findNote_none_of_no_marker (strict : Bool) (cs : List Char) (h : '【' ∉ cs) :
    ∀ cnt i, findNoteFromAux strict cs i cnt = none := by
  intro cnt
  induction cnt with
  | zero => intro i; rfl
  | succ k ih =>
    intro i
    have hm : matchNoteAt strict cs i = none := by
      unfold matchNoteAt
      cases hd : cs.drop i with
      | nil => rfl
      | cons c rest =>
        have hc : c ∈ cs := by
          have hmem : c ∈ cs.drop i := by
            rw [hd]; exact List.mem_cons_self c rest
          exact List.drop_subset i cs hmem
        have hne : ¬ (c = '【') := fun he => h (he ▸ hc)
        simp [hne]
    unfold findNoteFromAux
    rw [hm]
    exact ih (i + 1)

/-- Either variant returns the empty entry list on a marker-free text. -/
theorem parse_empty_of_no_marker (strict : Bool) (cs : List Char) (h : '【' ∉ cs) :
    parseNotesText strict cs = [] := by
  have h1 : findNoteFrom strict cs 0 = none := findNote_none_of_no_marker strict cs h _ 0
  unfold parseNotesText parseLoop
  rw [h1]

/-- Claim C10 (amended): the two `parseNoteFiles` variants are not
equivalent in general; they do agree — both returning the empty list —
on every source text containing no `【` character. -/
theorem variants_agree_without_marker (cs : List Char) (h : '【' ∉ cs) :
    parseNotesText true cs = [] ∧ parseNotesText false cs = [] :=
  ⟨parse_empty_of_no_marker true cs h, parse_empty_of_no_marker false cs h⟩

/-- Witness for the amended C10 on a concrete marker-free text. -/
theorem variants_agree_without_marker_witness :
    parseNotesText true ['h', 'i'] = [] ∧ parseNotesText false ['h', 'i'] = [] :=
  variants_agree_without_marker ['h', 'i'] (by decide)

/-! ## C6: every emitted entry has a non-empty key and value -/

/-- Every record emitted by the grammar loop has a non-empty (trimmed)
key and value: candidates failing the check are silently dropped. -/
theorem parseLoop_mem (strict : Bool) (cs : List Char) :
    ∀ fuel i e, e ∈ parseLoop strict cs i fuel → e.1 ≠ [] ∧ e.2.1 ≠ [] := by
  intro fuel
  induction fuel with
  | zero => intro i e he; simp [parseLoop] at he
  | succ f ih =>
    intro i e he
    unfold parseLoop at he
    cases hf : findNoteFrom strict cs i with
    | none =>
      rw [hf] at he
      simp at he
    | some r =>
      obtain ⟨p, k, v, en⟩ := r
      rw [hf] at he
      rcases List.mem_append.mp he with h1 | h2
      · by_cases hg : trimWs k = [] ∨ trimWs v = []
        · rw [if_pos hg] at h1
          simp at h1
        · rw [if_neg hg] at h1
          simp at h1
          rw [h1]
          exact ⟨(not_or.mp hg).1, (not_or.mp hg).2⟩
      · exact ih en e h2

/-- The per-entry invariant lifts through the source loop of the build. -/
theorem buildAux_mem (strict : Bool) :
    ∀ srcs acc l, parseNoteFilesAux strict acc srcs = Except.ok l →
      (∀ e ∈ acc, e.key ≠ [] ∧ e.value ≠ []) →
      ∀ e ∈ l, e.key ≠ [] ∧ e.value ≠ [] := by
  intro srcs
  induction srcs with
  | nil =>
    intro acc l h hacc
    have hal : acc = l := by simpa [parseNoteFilesAux] using h
    exact hal ▸ hacc
  | cons s rest ih =>
    obtain ⟨sid, txt⟩ := s
    intro acc l h hacc
    cases txt with
    | none => simp [parseNoteFilesAux] at h
    | some t =>
      refine ih _ l (by simpa [parseNoteFilesAux] using h) ?_
      intro e he
      rcases List.mem_append.mp he with h1 | h2
      · exact hacc e h1
      · obtain ⟨tr, htr, hre⟩ := List.mem_map.mp h2
        have hp := parseLoop_mem strict t _ 0 tr htr
        rw [← hre]
        exact hp

/-- Claim C6 (amended): under either grammar variant, every NoteEntry
of a successful build has a non-empty trimmed key and a non-empty
trimmed value — candidates failing the check are dropped with no entry
and no error.  (The concrete example behaves as claimed only under the
tolerant variant; the strict variant emits nothing on it.) -/
theorem note_entries_nonempty (strict : Bool) (srcs : List (Nat × Option (List Char)))
    (l : List NoteEntry) (h : parseNoteFiles strict srcs = Except.ok l) :
    ∀ e ∈ l, e.key ≠ [] ∧ e.value ≠ [] :=
  buildAux_mem strict srcs [] l h (fun e he => absurd he (List.not_mem_nil e))

/-- Witness for C6: the single entry the tolerant variant builds from
the spec's empty-value example has non-empty key and value. -/
theorem note_entries_nonempty_witness :
    NoteEntry.mk ['B'] ['v', 'a', 'l', 'u', 'e'] 0 1 ∈
      [NoteEntry.mk ['B'] ['v', 'a', 'l', 'u', 'e'] 0 1] ∧
    ((NoteEntry.mk ['B'] ['v', 'a', 'l', 'u', 'e'] 0 1).key ≠ [] ∧
      (NoteEntry.mk ['B'] ['v', 'a', 'l', 'u', 'e'] 0 1).value ≠ []) :=
  ⟨by decide,
    note_entries_nonempty false [(0, some exampleEmptyValue)] _ rfl _ (by decide)⟩

/-! ## C7: the locate-at-position lookup -/

/-- When the per-key `exec` loop terminates with a span list, the
hover/definition inner loop returns exactly "some span contains the
column inclusively". -/
theorem jsFindAtKey_of_exec (pat : List Piece) (klen : Nat) (cs : List Char) (col : Nat) :
    ∀ fuel i L, jsExecSpans pat klen cs i fuel = some L →
      jsFindAtKey pat klen cs col i fuel =
        some (L.any (fun se => decide (se.1 ≤ col ∧ col ≤ se.2))) := by
  intro fuel
  induction fuel with
  | zero => intro i L h; simp [jsExecSpans] at h
  | succ f ih =>
    intro i L h
    unfold jsExecSpans at h
    unfold jsFindAtKey
    cases hf : findFrom pat cs i with
    | none =>
      rw [hf] at h
      have h2 : (some [] : Option (List (Nat × Nat))) = some L := h
      have hL : [] = L := by injection h2
      rw [← hL]
      rfl
    | some jl =>
      obtain ⟨j, len⟩ := jl
      rw [hf] at h
      have h2 : (match jsExecSpans pat klen cs (j + len) f with
          | none => none
          | some more => some ((j, j + klen) :: more) : Option (List (Nat × Nat))) = some L := h
      show (if j ≤ col ∧ col ≤ j + klen then some true
          else jsFindAtKey pat klen cs col (j + len) f) =
        some (L.any (fun se => decide (se.1 ≤ col ∧ col ≤ se.2)))
      cases he : jsExecSpans pat klen cs (j + len) f with
      | none =>
        rw [he] at h2
        exact absurd h2 (by simp)
      | some more =>
        rw [he] at h2
        have hL : (j, j + klen) :: more = L := by injection h2
        subst hL
        by_cases hc : j ≤ col ∧ col ≤ j + klen
        · rw [if_pos hc]
          simp [hc]
        · rw [if_neg hc, ih _ _ he]
          simp [hc]

/-- Claim C7 (amended): whenever every key of the note list is inside
the modelled regex fragment and its scan of the line terminates within
the given fuel, the hover/definition lookup returns exactly the first
NoteEntry in index order one of whose scan spans contains the column
inclusively at both ends (`start ≤ column ≤ start + key.length`, per
`vscode.Range.contains`), and `none` when no entry has such a span. -/
theorem findAt_first_entry_inclusive
    (notes : List NoteEntry) (cs : List Char) (col fuel : Nat)
    (h : ∀ n ∈ notes,
      ((parseKeyPattern n.key).bind
        (fun pat => jsExecSpans pat n.key.length cs 0 fuel)).isSome) :
    findNoteAt notes cs col fuel =
      some (notes.find?
        (fun n => (keySpans n cs fuel).any (fun se => decide (se.1 ≤ col ∧ col ≤ se.2)))) := by
  induction notes with
  | nil => rfl
  | cons n rest ih =>
    have hn := h n (List.mem_cons_self n rest)
    cases hp : parseKeyPattern n.key with
    | none => rw [hp] at hn; simp at hn
    | some pat =>
      rw [hp] at hn
      simp only [Option.some_bind] at hn
      obtain ⟨L, hL⟩ := Option.isSome_iff_exists.mp hn
      have hks : keySpans n cs fuel = L := by
        simp [keySpans, hp, hL]
      unfold findNoteAt
      rw [hp]
      show (match jsFindAtKey pat n.key.length cs col 0 fuel with
        | none => none
        | some true => some (some n)
        | some false => findNoteAt rest cs col fuel) =
        some ((n :: rest).find?
          (fun m => (keySpans m cs fuel).any (fun se => decide (se.1 ≤ col ∧ col ≤ se.2))))
      rw [jsFindAtKey_of_exec pat n.key.length cs col fuel 0 L hL]
      cases hb : L.any (fun se => decide (se.1 ≤ col ∧ col ≤ se.2)) with
      | true =>
        show some (some n) = _
        rw [List.find?_cons_of_pos _ (by rw [hks]; exact hb)]
      | false =>
        show findNoteAt rest cs col fuel = _
        rw [List.find?_cons_of_neg _ (by rw [hks, hb]; simp)]
        exact ih (fun m hm => h m (List.mem_cons_of_mem n hm))

/-- Witness for the amended C7 at a concrete note, line and column. -/
theorem findAt_first_entry_inclusive_witness :
    findNoteAt [NoteEntry.mk ['K'] ['v'] 0 0] ['K'] 0 2 =
      some (([NoteEntry.mk ['K'] ['v'] 0 0]).find?
        (fun n => (keySpans n ['K'] 2).any (fun se => decide (se.1 ≤ 0 ∧ 0 ≤ se.2)))) :=
  findAt_first_entry_inclusive [NoteEntry.mk ['K'] ['v'] 0 0] ['K'] 0 2 (by decide)

/-- Counterexample to claim C7 as stated: with the single note `K` and
the line `K`, the half-open span `[0, 1)` of the only literal
occurrence does not contain column 1, yet the lookup returns the note —
`vscode.Range.contains` is inclusive at the end offset. -/
theorem hover_inclusive_end_counterexample :
    findNoteAt [NoteEntry.mk ['K'] ['v'] 0 0] ['K'] 1 2 =
      some (some (NoteEntry.mk ['K'] ['v'] 0 0)) ∧
    specLitScan ['K'] ['K'] 0 = [(0, 1)] ∧
    (specLitScan ['K'] ['K'] 0).filter (fun se => decide (se.1 ≤ 1 ∧ 1 < se.2)) = [] := by
  decide

/-! ## C8: the span enumeration -/

/-- A leading segment is no longer than the list it leads. -/
theorem leadsWith_length : ∀ (k l : List Char), leadsWith k l = true → k.length ≤ l.length := by
  intro k
  induction k with
  | nil => intro l h; simp
  | cons a as ih =>
    intro l h
    cases l with
    | nil => simp [leadsWith] at h
    | cons b bs =>
      simp only [leadsWith, Bool.and_eq_true] at h
      have hle := ih bs h.2
      simp only [List.length_cons]
      omega

/-- A literal key character is neither a quantifier nor a special
construct, and compiles to a literal atom. -/
theorem isLitChar_facts (c : Char) (h : isLitChar c = true) :
    quantChar c = false ∧ isPatSpecial c = false ∧ mkAtom c = Atom.lit c := by
  have h2 : (quantChar c || isPatSpecial c || c == '.') = false := by
    simpa [isLitChar] using h
  simp only [Bool.or_eq_false_iff] at h2
  refine ⟨h2.1.1, h2.1.2, ?_⟩
  have hdot : ¬ (c = '.') := by simpa using h2.2
  simp [mkAtom, hdot]

/-- A key made of literal characters compiles to the sequence of its
characters as mandatory literal atoms. -/
theorem parseKeyPattern_lit : ∀ (k : List Char), (∀ c ∈ k, isLitChar c = true) →
    parseKeyPattern k = some (k.map (fun c => Piece.once (Atom.lit c))) := by
  intro k
  induction k with
  | nil => intro h; rfl
  | cons c k2 ih =>
    intro h
    obtain ⟨hq, hs, hm⟩ := isLitChar_facts c (h c (List.mem_cons_self c k2))
    cases k2 with
    | nil => simp [parseKeyPattern, hq, hs, hm]
    | cons q k3 =>
      obtain ⟨hq2, _, _⟩ := isLitChar_facts q (h q (by simp))
      have hstar : ¬ (q = '*') := by intro he; rw [he] at hq2; simp [quantChar] at hq2
      have hplus : ¬ (q = '+') := by intro he; rw [he] at hq2; simp [quantChar] at hq2
      have hquest : ¬ (q = '?') := by intro he; rw [he] at hq2; simp [quantChar] at hq2
      have hrec := ih (fun d hd => h d (List.mem_cons_of_mem c hd))
      simp [parseKeyPattern, hq, hs, hstar, hplus, hquest, hm, hrec]

/-- An all-literal pattern matches a prefix exactly when the key is a
leading segment, and then consumes exactly the key length. -/
theorem matchSeq_lit : ∀ (k ds : List Char),
    matchSeq (k.map (fun c => Piece.once (Atom.lit c))) ds =
      if leadsWith k ds then some k.length else none := by
  intro k
  induction k with
  | nil => intro ds; simp [matchSeq_nil, leadsWith]
  | cons c k2 ih =>
    intro ds
    cases ds with
    | nil => simp [List.map_cons, matchSeq_once_nil, leadsWith]
    | cons d ds2 =>
      rw [List.map_cons, matchSeq_once_cons, ih ds2]
      by_cases hcd : d = c
      · have h1 : atomMatch (Atom.lit c) d = true := by simp [atomMatch, hcd]
        have h2 : leadsWith (c :: k2) (d :: ds2) = leadsWith k2 ds2 := by
          simp [leadsWith, hcd]
        rw [h1, h2]
        by_cases hl : leadsWith k2 ds2 = true
        · rw [if_pos hl, if_pos hl]
          simp
        · rw [if_neg hl, if_neg hl]
          rfl
      · have h1 : atomMatch (Atom.lit c) d = false := by simp [atomMatch, hcd]
        have h2 : leadsWith (c :: k2) (d :: ds2) = false := by
          have : ¬ (c = d) := fun he => hcd he.symm
          simp [leadsWith, this]
        rw [h1, h2]
        simp

/-- Soundness of the forward scan: a reported match is the leftmost
one at or after the start position. -/
theorem findFromAux_some (pat : List Piece) (cs : List Char) :
    ∀ cnt i j len, findFromAux pat cs i cnt = some (j, len) →
      i ≤ j ∧ j < i + cnt ∧ matchSeq pat (cs.drop j) = some len ∧
        ∀ m, i ≤ m → m < j → matchSeq pat (cs.drop m) = none := by
  intro cnt
  induction cnt with
  | zero => intro i j len h; simp [findFromAux] at h
  | succ k ih =>
    intro i j len h
    unfold findFromAux at h
    cases hm : matchSeq pat (cs.drop i) with
    | some l =>
      rw [hm] at h
      have h2 : (some (i, l) : Option (Nat × Nat)) = some (j, len) := h
      have h3 : (i, l) = (j, len) := by injection h2
      have hij : i = j := congrArg Prod.fst h3
      have hlen : l = len := congrArg Prod.snd h3
      subst hij
      subst hlen
      exact ⟨le_refl i, by omega, hm, fun m h1 h2 => absurd h2 (by omega)⟩
    | none =>
      rw [hm] at h
      have h2 : findFromAux pat cs (i + 1) k = some (j, len) := h
      obtain ⟨h1, h2b, h3, h4⟩ := ih (i + 1) j len h2
      refine ⟨by omega, by omega, h3, ?_⟩
      intro m hm1 hm2
      rcases Nat.lt_or_ge m (i + 1) with hc | hc
      · have hmi : m = i := by omega
        rw [hmi]
        exact hm
      · exact h4 m hc hm2

/-- Completeness of the forward scan: a failed scan means no position
in the scanned window matches. -/
theorem findFromAux_none (pat : List Piece) (cs : List Char) :
    ∀ cnt i, findFromAux pat cs i cnt = none →
      ∀ m, i ≤ m → m < i + cnt → matchSeq pat (cs.drop m) = none := by
  intro cnt
  induction cnt with
  | zero => intro i h m h1 h2; omega
  | succ k ih =>
    intro i h m h1 h2
    unfold findFromAux at h
    cases hm : matchSeq pat (cs.drop i) with
    | some l =>
      rw [hm] at h
      exact Option.noConfusion h
    | none =>
      rw [hm] at h
      have h3 : findFromAux pat cs (i + 1) k = none := h
      rcases Nat.lt_or_ge m (i + 1) with hc | hc
      · have hmi : m = i := by omega
        rw [hmi]
        exact hm
      · exact ih (i + 1) h3 m hc (by omega)

/-- The fuel of the literal scanner is irrelevant as long as it covers
the text length. -/
theorem specLitScanF_congr (key : List Char) :
    ∀ f1 f2 ds i, ds.length ≤ f1 → ds.length ≤ f2 →
      specLitScanF key f1 ds i = specLitScanF key f2 ds i := by
  intro f1
  induction f1 with
  | zero =>
    intro f2 ds i h1 h2
    have hds : ds = [] := List.eq_nil_of_length_eq_zero (by omega)
    subst hds
    cases f2 <;> rfl
  | succ f ih =>
    intro f2 ds i h1 h2
    cases ds with
    | nil => cases f2 <;> rfl
    | cons d ds2 =>
      cases f2 with
      | zero => simp at h2
      | succ g =>
        show (if key ≠ [] ∧ leadsWith key (d :: ds2) then
            (i, i + key.length) :: specLitScanF key f ((d :: ds2).drop key.length) (i + key.length)
          else specLitScanF key f ds2 (i + 1)) =
          (if key ≠ [] ∧ leadsWith key (d :: ds2) then
            (i, i + key.length) :: specLitScanF key g ((d :: ds2).drop key.length) (i + key.length)
          else specLitScanF key g ds2 (i + 1))
        simp only [List.length_cons] at h1 h2
        by_cases hc : key ≠ [] ∧ leadsWith key (d :: ds2) = true
        · rw [if_pos hc, if_pos hc]
          congr 1
          have hkpos : 0 < key.length := List.length_pos.mpr hc.1
          apply ih
          · rw [List.length_drop]
            simp only [List.length_cons]
            omega
          · rw [List.length_drop]
            simp only [List.length_cons]
            omega
        · rw [if_neg hc, if_neg hc]
          exact ih g ds2 (i + 1) (by omega) (by omega)

/-- One-step unfolding of the literal scanner on a non-empty text. -/
theorem specLitScan_cons (key : List Char) (d : Char) (ds : List Char) (i : Nat) :
    specLitScan key (d :: ds) i =
      if key ≠ [] ∧ leadsWith key (d :: ds) then
        (i, i + key.length) :: specLitScan key ((d :: ds).drop key.length) (i + key.length)
      else specLitScan key ds (i + 1) := by
  show (if key ≠ [] ∧ leadsWith key (d :: ds) then
      (i, i + key.length) :: specLitScanF key ds.length ((d :: ds).drop key.length) (i + key.length)
    else specLitScanF key ds.length ds (i + 1)) = _
  by_cases hc : key ≠ [] ∧ leadsWith key (d :: ds) = true
  · rw [if_pos hc, if_pos hc]
    congr 1
    have hkpos : 0 < key.length := List.length_pos.mpr hc.1
    apply specLitScanF_congr
    · rw [List.length_drop]
      simp only [List.length_cons]
      omega
    · exact le_refl _
  · rw [if_neg hc, if_neg hc]
    rfl

/-- The literal scanner skips a window of non-matching positions. -/
theorem specLitScan_skip (key cs : List Char) (_hk : key ≠ []) :
    ∀ d i, i + d ≤ cs.length →
      (∀ m, i ≤ m → m < i + d → leadsWith key (cs.drop m) = false) →
      specLitScan key (cs.drop i) i = specLitScan key (cs.drop (i + d)) (i + d) := by
  intro d
  induction d with
  | zero => intro i h1 h2; rfl
  | succ dd ih =>
    intro i h1 h2
    have hi : i < cs.length := by omega
    have hdropi : cs.drop i = cs[i] :: cs.drop (i + 1) := List.drop_eq_getElem_cons hi
    have hfalse : leadsWith key (cs.drop i) = false := h2 i (le_refl i) (by omega)
    rw [hdropi, specLitScan_cons, if_neg (by simp [hfalse])]
    have h3 := ih (i + 1) (by omega) (fun m hm1 hm2 => h2 m (by omega) (by omega))
    have h4 : i + 1 + dd = i + (dd + 1) := by omega
    rw [h4] at h3
    exact h3

/-- The literal scanner emits a span at a matching position and skips
past the whole key. -/
theorem specLitScan_hit (key cs : List Char) (hk : key ≠ []) (j : Nat)
    (hl : leadsWith key (cs.drop j) = true) :
    specLitScan key (cs.drop j) j =
      (j, j + key.length) :: specLitScan key (cs.drop (j + key.length)) (j + key.length) := by
  have hj : j < cs.length := by
    by_contra hcon
    push_neg at hcon
    have hnil : cs.drop j = [] := List.drop_eq_nil_of_le hcon
    rw [hnil] at hl
    cases key with
    | nil => exact hk rfl
    | cons a as => simp [leadsWith] at hl
  have hdropj : cs.drop j = cs[j] :: cs.drop (j + 1) := List.drop_eq_getElem_cons hj
  rw [hdropj, specLitScan_cons, if_pos ⟨hk, by rw [← hdropj]; exact hl⟩]
  congr 1
  rw [← hdropj, List.drop_drop]

/-- The literal scanner finds nothing when no position matches. -/
theorem specLitScan_end (key cs : List Char) (hk : key ≠ []) (i : Nat)
    (h : ∀ m, i ≤ m → m ≤ cs.length → leadsWith key (cs.drop m) = false) :
    specLitScan key (cs.drop i) i = [] := by
  rcases le_or_lt i cs.length with hi | hi
  · have hskip := specLitScan_skip key cs hk (cs.length - i) i (by omega)
      (fun m hm1 hm2 => h m hm1 (by omega))
    rw [hskip]
    have h4 : i + (cs.length - i) = cs.length := by omega
    rw [h4, List.drop_length]
    rfl
  · have hnil : cs.drop i = [] := List.drop_eq_nil_of_le (by omega)
    rw [hnil]
    rfl

/-- For a non-empty all-literal key, the source's `exec` loop
terminates (under enough fuel) and produces exactly the literal
non-overlapping left-to-right occurrence spans. -/
theorem jsExecSpans_lit (key cs : List Char) (hk : key ≠ []) :
    ∀ fuel i, cs.length + 1 - i < fuel →
      jsExecSpans (key.map (fun c => Piece.once (Atom.lit c))) key.length cs i fuel =
        some (specLitScan key (cs.drop i) i) := by
  intro fuel
  induction fuel with
  | zero => intro i h; omega
  | succ f ih =>
    intro i h
    unfold jsExecSpans
    cases hf : findFrom (key.map (fun c => Piece.once (Atom.lit c))) cs i with
    | none =>
      have hf2 : findFromAux (key.map (fun c => Piece.once (Atom.lit c))) cs i (cs.length + 1 - i) = none := hf
      have hnone := findFromAux_none _ cs _ i hf2
      have hlw : ∀ m, i ≤ m → m ≤ cs.length → leadsWith key (cs.drop m) = false := by
        intro m h1 h2
        have h3 := hnone m h1 (by omega)
        rw [matchSeq_lit] at h3
        cases hb : leadsWith key (cs.drop m) with
        | false => rfl
        | true => rw [hb] at h3; simp at h3
      rw [specLitScan_end key cs hk i hlw]
    | some jl =>
      obtain ⟨j, len2⟩ := jl
      have hf2 : findFromAux (key.map (fun c => Piece.once (Atom.lit c))) cs i (cs.length + 1 - i) = some (j, len2) := hf
      obtain ⟨hij, hjlt, hmj, hmin⟩ := findFromAux_some _ cs _ i j len2 hf2
      rw [matchSeq_lit] at hmj
      cases hl : leadsWith key (cs.drop j) with
      | false => rw [hl] at hmj; simp at hmj
      | true =>
        rw [hl] at hmj
        simp only [if_pos rfl, if_true] at hmj
        have hlen2 : key.length = len2 := by injection hmj
        subst hlen2
        have hkpos : 0 < key.length := List.length_pos.mpr hk
        have hlenle := leadsWith_length key (cs.drop j) hl
        rw [List.length_drop] at hlenle
        have hjle : j ≤ cs.length := by
          by_contra hcon
          push_neg at hcon
          have hnil : cs.drop j = [] := List.drop_eq_nil_of_le (by omega)
          rw [hnil] at hl
          cases key with
          | nil => exact hk rfl
          | cons a as => simp [leadsWith] at hl
        have hjkb : j + key.length ≤ cs.length := by omega
        have hminl : ∀ m, i ≤ m → m < j → leadsWith key (cs.drop m) = false := by
          intro m h1 h2
          have h3 := hmin m h1 h2
          rw [matchSeq_lit] at h3
          cases hb : leadsWith key (cs.drop m) with
          | false => rfl
          | true => rw [hb] at h3; simp at h3
        have hsk : specLitScan key (cs.drop i) i = specLitScan key (cs.drop j) j := by
          have h5 := specLitScan_skip key cs hk (j - i) i (by omega)
            (fun m hm1 hm2 => hminl m hm1 (by omega))
          have h6 : i + (j - i) = j := by omega
          rw [h6] at h5
          exact h5
        show (match jsExecSpans (key.map (fun c => Piece.once (Atom.lit c))) key.length cs
            (j + key.length) f with
          | none => none
          | some more => some ((j, j + key.length) :: more)) =
          some (specLitScan key (cs.drop i) i)
        rw [ih (j + key.length) (by omega), hsk, specLitScan_hit key cs hk j hl]

/-- Counterexample to claim C8 as stated: the enumeration's
"occurrences of the key" are regex occurrences, not literal ones — the
key `x.z` does not occur literally in `xyz`, yet the scan reports a
span there. -/
theorem findAllSpans_regex_occurrence_counterexample :
    findAllSpans [NoteEntry.mk ['x', '.', 'z'] ['v'] 0 0] ['x', 'y', 'z'] 5 =
      some [MatchSpan.mk ['x', '.', 'z'] 0 3] ∧
    occursIn ['x', '.', 'z'] ['x', 'y', 'z'] = false := by
  decide

/-- Claim C8 (amended): for notes whose keys are non-empty and consist
of characters the regex engine treats literally, the span enumeration
terminates and produces, for each NoteEntry in index order (duplicates
included, hence shared keys reported once per entry), exactly one
MatchSpan per literal non-overlapping left-to-right occurrence of the
key, and the empty list — not an error — when there are no notes or no
occurrences.  (For keys with regex-special characters the occurrences
are pattern occurrences, cf. C1; for keys whose pattern matches the
empty string the scan does not return, cf. C3.) -/
theorem findAllSpans_literal_enumeration
    (notes : List NoteEntry) (cs : List Char) (fuel : Nat)
    (hkeys : ∀ n ∈ notes, n.key ≠ [] ∧ ∀ c ∈ n.key, isLitChar c = true)
    (hfuel : cs.length + 1 < fuel) :
    findAllSpans notes cs fuel =
      some (notes.flatMap
        (fun n => (specLitScan n.key cs 0).map (fun se => MatchSpan.mk n.key se.1 se.2))) := by
  induction notes with
  | nil => rfl
  | cons n rest ih =>
    obtain ⟨hk, hlit⟩ := hkeys n (List.mem_cons_self n rest)
    unfold findAllSpans
    rw [parseKeyPattern_lit n.key hlit]
    show (match jsExecSpans (n.key.map (fun c => Piece.once (Atom.lit c))) n.key.length cs 0 fuel with
      | none => none
      | some occs =>
        match findAllSpans rest cs fuel with
        | none => none
        | some tailSpans =>
          some (occs.map (fun se : Nat × Nat => MatchSpan.mk n.key se.1 se.2) ++ tailSpans)) = _
    rw [jsExecSpans_lit n.key cs hk fuel 0 (by omega),
      ih (fun m hm => hkeys m (List.mem_cons_of_mem n hm))]
    show some ((specLitScan n.key (cs.drop 0) 0).map
        (fun se : Nat × Nat => MatchSpan.mk n.key se.1 se.2) ++
        rest.flatMap (fun m => (specLitScan m.key cs 0).map
          (fun se : Nat × Nat => MatchSpan.mk m.key se.1 se.2))) = _
    rw [List.drop_zero, List.flatMap_cons]

/-- Witness for the amended C8: two notes sharing the key `K` over the
target `xKyK` produce the two literal spans once per entry. -/
theorem findAllSpans_literal_enumeration_witness :
    findAllSpans [NoteEntry.mk ['K'] ['v'] 0 0, NoteEntry.mk ['K'] ['w'] 1 0]
        ['x', 'K', 'y', 'K'] 6 =
      some ([NoteEntry.mk ['K'] ['v'] 0 0, NoteEntry.mk ['K'] ['w'] 1 0].flatMap
        (fun n => (specLitScan n.key ['x', 'K', 'y', 'K'] 0).map
          (fun se : Nat × Nat => MatchSpan.mk n.key se.1 se.2))) :=
  findAllSpans_literal_enumeration
    [NoteEntry.mk ['K'] ['v'] 0 0, NoteEntry.mk ['K'] ['w'] 1 0]
    ['x', 'K', 'y', 'K'] 6 (by decide) (by decide)

/-! ## C5: multi-line value capture -/

/-- The bracket-content group captures exactly the characters up to the
first closing bracket. -/
theorem takeWhile_marker (k r : List Char) (hk : '】' ∉ k) :
    (k ++ '】' :: r).takeWhile (fun x => x != '】') = k := by
  induction k with
  | nil => simp
  | cons c k2 ih =>
    have hc : ¬ (c = '】') := fun he => hk (by simp [he])
    have ih2 := ih (fun hm => hk (List.mem_cons_of_mem c hm))
    simp only [List.cons_append, List.takeWhile_cons]
    rw [if_pos (by simp [hc]), ih2]

/-- The lazy value group stops exactly at a following newline-plus-
marker pair when the value itself contains none. -/
theorem valueLen_stop (v t : List Char) (h : occursIn ['\n', '【'] v = false) :
    valueLen (v ++ '\n' :: '【' :: t) = v.length := by
  induction v with
  | nil =>
    show valueLen ('\n' :: '【' :: t) = 0
    simp [valueLen]
  | cons c v2 ih =>
    simp only [occursIn, Bool.or_eq_false_iff] at h
    have ih2 := ih h.2
    show (if c = '\n' ∧ (v2 ++ '\n' :: '【' :: t).head? = some '【' then 0
      else 1 + valueLen (v2 ++ '\n' :: '【' :: t)) = (c :: v2).length
    have hcond : ¬ (c = '\n' ∧ (v2 ++ '\n' :: '【' :: t).head? = some '【') := by
      rintro ⟨h1, h2⟩
      cases v2 with
      | nil => simp at h2
      | cons d v3 =>
        simp at h2
        have hlw : leadsWith ['\n', '【'] (c :: d :: v3) = true := by
          simp [leadsWith, h1, h2]
        have hfalse := h.1
        rw [hlw] at hfalse
        exact Bool.noConfusion hfalse
    rw [if_neg hcond, ih2]
    simp only [List.length_cons]
    omega

/-- The lazy value group runs to the end of input when no
newline-plus-marker pair occurs. -/
theorem valueLen_all (v : List Char) (h : occursIn ['\n', '【'] v = false) :
    valueLen v = v.length := by
  induction v with
  | nil => rfl
  | cons c v2 ih =>
    simp only [occursIn, Bool.or_eq_false_iff] at h
    have ih2 := ih h.2
    show (if c = '\n' ∧ v2.head? = some '【' then 0 else 1 + valueLen v2) = (c :: v2).length
    have hcond : ¬ (c = '\n' ∧ v2.head? = some '【') := by
      rintro ⟨h1, h2⟩
      cases v2 with
      | nil => simp at h2
      | cons d v3 =>
        simp at h2
        have hlw : leadsWith ['\n', '【'] (c :: d :: v3) = true := by
          simp [leadsWith, h1, h2]
        have hfalse := h.1
        rw [hlw] at hfalse
        exact Bool.noConfusion hfalse
    rw [if_neg hcond, ih2]
    simp only [List.length_cons]
    omega

/-- The tolerant grammar matches at a well-formed marker position,
capturing the bracket contents and the lazy value. -/
theorem matchNoteAt_tolerant (cs : List Char) (p : Nat) (k r : List Char)
    (hd : cs.drop p = '【' :: (k ++ '】' :: r)) (hk : k ≠ []) (hmem : '】' ∉ k) :
    matchNoteAt false cs p =
      some (k, r.take (valueLen r), p + 1 + k.length + 1 + valueLen r) := by
  have htw := takeWhile_marker k r hmem
  have hne : k.isEmpty = false := by
    cases k with
    | nil => exact absurd rfl hk
    | cons a as => rfl
  have hdr : (k ++ '】' :: r).drop k.length = '】' :: r := List.drop_left k ('】' :: r)
  unfold matchNoteAt
  rw [hd]
  simp only [htw, hne, hdr]
  simp

/-- Neither grammar variant matches at a position whose first character
is not the opening bracket. -/
theorem matchNoteAt_not_marker (strict : Bool) (cs : List Char) (p : Nat) (c : Char)
    (rest : List Char) (hd : cs.drop p = c :: rest) (hc : ¬ (c = '【')) :
    matchNoteAt strict cs p = none := by
  unfold matchNoteAt
  rw [hd]
  simp [hc]

/-- Neither grammar variant matches at or beyond the end of input. -/
theorem matchNoteAt_nil (strict : Bool) (cs : List Char) (p : Nat)
    (hd : cs.drop p = []) : matchNoteAt strict cs p = none := by
  unfold matchNoteAt
  rw [hd]

/-- A successful probe stops the forward grammar scan at once. -/
theorem findNoteFromAux_match (strict : Bool) (cs : List Char) (i cnt : Nat)
    (r : List Char × List Char × Nat) (h : matchNoteAt strict cs i = some r) :
    findNoteFromAux strict cs i (cnt + 1) = some (i, r.1, r.2.1, r.2.2) := by
  conv_lhs => unfold findNoteFromAux
  rw [h]

/-- A failed probe advances the forward grammar scan one position. -/
theorem findNoteFromAux_skip (strict : Bool) (cs : List Char) (i cnt : Nat)
    (h : matchNoteAt strict cs i = none) :
    findNoteFromAux strict cs i (cnt + 1) = findNoteFromAux strict cs (i + 1) cnt := by
  conv_lhs => unfold findNoteFromAux
  rw [h]

/-- One step of the parse loop at a found match. -/
theorem parseLoop_match (strict : Bool) (cs : List Char) (i fuel p : Nat)
    (k v : List Char) (e : Nat) (h : findNoteFrom strict cs i = some (p, k, v, e)) :
    parseLoop strict cs i (fuel + 1) =
      (if trimWs k = [] ∨ trimWs v = [] then []
       else [(trimWs k, trimWs v, lineOf cs p)]) ++ parseLoop strict cs e fuel := by
  conv_lhs => unfold parseLoop
  rw [h]

/-- The parse loop stops when the scan finds nothing. -/
theorem parseLoop_stop (strict : Bool) (cs : List Char) (i fuel : Nat)
    (h : findNoteFrom strict cs i = none) :
    parseLoop strict cs i (fuel + 1) = [] := by
  conv_lhs => unfold parseLoop
  rw [h]

/-- Claim C5 (amended, for the tolerant variant of
`src/unnamed/part_000`): in a source with two well-formed markers, the
captured value of the first marker is every character after `】` up to
but not including the start of the next line beginning with a marker,
and the second marker's value runs to end of input; both are trimmed,
and the definition lines are the marker lines.  Instantiated at the
spec's example `【A】line1\nline2\n【B】line3` this yields entry A with
value `line1\nline2` and entry B with value `line3`.  (The strict
variant of `src/src/extension.ts` also requires `：` after `】` and
yields no entry on such input, see the counterexample.) -/
theorem tolerant_two_marker_capture (k1 v1 k2 v2 cs : List Char)
    (hcs : cs = '【' :: (k1 ++ '】' :: (v1 ++ '\n' :: '【' :: (k2 ++ '】' :: v2))))
    (hk1m : '】' ∉ k1) (hk2m : '】' ∉ k2) (hk1 : k1 ≠ []) (hk2 : k2 ≠ [])
    (hnl : '\n' ∉ k1)
    (hv1 : occursIn ['\n', '【'] v1 = false) (hv2 : occursIn ['\n', '【'] v2 = false)
    (ht1 : trimWs k1 ≠ []) (ht2 : trimWs v1 ≠ [])
    (ht3 : trimWs k2 ≠ []) (ht4 : trimWs v2 ≠ []) :
    parseNotesText false cs =
      [(trimWs k1, trimWs v1, 0),
       (trimWs k2, trimWs v2, v1.count '\n' + 1)] := by
  have hAB : cs = ('【' :: (k1 ++ '】' :: v1)) ++ ('\n' :: '【' :: (k2 ++ '】' :: v2)) := by
    rw [hcs]
    simp [List.append_assoc]
  have hlenA : ('【' :: (k1 ++ '】' :: v1)).length = k1.length + v1.length + 2 := by
    simp only [List.length_cons, List.length_append]
    omega
  -- the first match, at position 0
  have hm1 : matchNoteAt false cs 0 =
      some (k1, v1, 0 + 1 + k1.length + 1 + v1.length) := by
    have hd0 : cs.drop 0 = '【' :: (k1 ++ '】' :: (v1 ++ '\n' :: '【' :: (k2 ++ '】' :: v2))) := by
      rw [List.drop_zero, hcs]
    have := matchNoteAt_tolerant cs 0 k1 (v1 ++ '\n' :: '【' :: (k2 ++ '】' :: v2)) hd0 hk1 hk1m
    rw [this, valueLen_stop v1 (k2 ++ '】' :: v2) hv1, List.take_left]
  have hf1 : findNoteFrom false cs 0 = some (0, k1, v1, 0 + 1 + k1.length + 1 + v1.length) := by
    show findNoteFromAux false cs 0 (cs.length + 1 - 0) = _
    have hc0 : cs.length + 1 - 0 = cs.length + 1 := rfl
    rw [hc0]
    exact findNoteFromAux_match false cs 0 cs.length _ hm1
  -- position bookkeeping
  have he1 : 0 + 1 + k1.length + 1 + v1.length = k1.length + v1.length + 2 := by omega
  have hdropE1 : cs.drop (k1.length + v1.length + 2) = '\n' :: '【' :: (k2 ++ '】' :: v2) := by
    rw [hAB, ← hlenA, List.drop_left]
  have hdropE1s : cs.drop (k1.length + v1.length + 2 + 1) = '【' :: (k2 ++ '】' :: v2) := by
    have hdd := List.drop_drop 1 (k1.length + v1.length + 2) cs
    rw [hdropE1] at hdd
    rw [← hdd]
    rfl
  -- the second match, at the position after the separating newline
  have hm2 : matchNoteAt false cs (k1.length + v1.length + 3) =
      some (k2, v2, k1.length + v1.length + 3 + 1 + k2.length + 1 + v2.length) := by
    have hd2 : cs.drop (k1.length + v1.length + 3) = '【' :: (k2 ++ '】' :: v2) := by
      have h3 : k1.length + v1.length + 2 + 1 = k1.length + v1.length + 3 := by omega
      rw [← h3]
      exact hdropE1s
    have := matchNoteAt_tolerant cs (k1.length + v1.length + 3) k2 v2 hd2 hk2 hk2m
    rw [this, valueLen_all v2 hv2, List.take_length]
  have hmskip : matchNoteAt false cs (k1.length + v1.length + 2) = none :=
    matchNoteAt_not_marker false cs (k1.length + v1.length + 2) '\n' _ hdropE1 (by decide)
  have hlencs : cs.length = k1.length + v1.length + k2.length + v2.length + 5 := by
    rw [hcs]
    simp [List.length_append, List.length_cons]
    omega
  have hf2 : findNoteFrom false cs (k1.length + v1.length + 2) =
      some (k1.length + v1.length + 3, k2, v2,
        k1.length + v1.length + 3 + 1 + k2.length + 1 + v2.length) := by
    show findNoteFromAux false cs (k1.length + v1.length + 2)
      (cs.length + 1 - (k1.length + v1.length + 2)) = _
    have hc2 : cs.length + 1 - (k1.length + v1.length + 2) =
        (k2.length + v2.length + 3) + 1 := by omega
    rw [hc2, findNoteFromAux_skip false cs _ _ hmskip]
    have h3 : k1.length + v1.length + 2 + 1 = k1.length + v1.length + 3 := by omega
    rw [h3]
    have hc3 : k2.length + v2.length + 3 = (k2.length + v2.length + 2) + 1 := by omega
    rw [hc3]
    exact findNoteFromAux_match false cs _ _ _ hm2
  -- the end position of the second match is the end of input
  have he2 : k1.length + v1.length + 3 + 1 + k2.length + 1 + v2.length = cs.length := by
    omega
  have hf3 : findNoteFrom false cs cs.length = none := by
    show findNoteFromAux false cs cs.length (cs.length + 1 - cs.length) = _
    have hc4 : cs.length + 1 - cs.length = 0 + 1 := by omega
    rw [hc4, findNoteFromAux_skip false cs _ _ (matchNoteAt_nil false cs _ (List.drop_length cs))]
    rfl
  -- line numbers
  have hline2 : lineOf cs (k1.length + v1.length + 3) = v1.count '\n' + 1 := by
    show (cs.take (k1.length + v1.length + 3)).count '\n' = v1.count '\n' + 1
    rw [hAB, List.take_append_eq_append_take]
    have htA : ('【' :: (k1 ++ '】' :: v1)).take (k1.length + v1.length + 3) =
        '【' :: (k1 ++ '】' :: v1) :=
      List.take_of_length_le (by rw [hlenA]; omega)
    have htB : (('\n' : Char) :: '【' :: (k2 ++ '】' :: v2)).take
        (k1.length + v1.length + 3 - ('【' :: (k1 ++ '】' :: v1)).length) = ['\n'] := by
      rw [hlenA]
      have hsub : k1.length + v1.length + 3 - (k1.length + v1.length + 2) = 1 := by omega
      rw [hsub]
      rfl
    rw [htA, htB, List.count_append]
    have hcA : ('【' :: (k1 ++ '】' :: v1)).count '\n' = v1.count '\n' := by
      rw [List.count_cons_of_ne (by decide), List.count_append,
        List.count_cons_of_ne (by decide), List.count_eq_zero.mpr hnl]
      omega
    rw [hcA]
    rfl
  -- assemble the loop
  show parseLoop false cs 0 (cs.length + 1) = _
  rw [parseLoop_match false cs 0 cs.length 0 k1 v1 _ hf1,
    if_neg (by rw [not_or]; exact ⟨ht1, ht2⟩)]
  have hl0 : lineOf cs 0 = 0 := rfl
  rw [hl0, he1]
  have hfs : cs.length = (k1.length + v1.length + k2.length + v2.length + 4) + 1 := by omega
  rw [hfs,
    parseLoop_match false cs (k1.length + v1.length + 2)
      (k1.length + v1.length + k2.length + v2.length + 4)
      (k1.length + v1.length + 3) k2 v2 _ hf2,
    if_neg (by rw [not_or]; exact ⟨ht3, ht4⟩), hline2, he2]
  have hfs2 : k1.length + v1.length + k2.length + v2.length + 4 =
      (k1.length + v1.length + k2.length + v2.length + 3) + 1 := by omega
  rw [hfs2, parseLoop_stop false cs cs.length _ hf3]
  rfl

/-- Witness for the amended C5 at the spec's own example: entry A with
value `line1\nline2` on line 0 and entry B with value `line3` on
line 2. -/
theorem tolerant_two_marker_capture_witness :
    parseNotesText false exampleTwoMarkers =
      [(['A'], ['l', 'i', 'n', 'e', '1', '\n', 'l', 'i', 'n', 'e', '2'], 0),
       (['B'], ['l', 'i', 'n', 'e', '3'], 2)] := by
  have h := tolerant_two_marker_capture ['A']
    ['l', 'i', 'n', 'e', '1', '\n', 'l', 'i', 'n', 'e', '2'] ['B']
    ['l', 'i', 'n', 'e', '3'] exampleTwoMarkers
    (by decide) (by decide) (by decide) (by decide) (by decide) (by decide)
    (by decide) (by decide) (by decide) (by decide) (by decide) (by decide)
  exact h.trans (by decide)

end DesignResolve
